import Mathlib

/-!
Verification of the multi-format document text-extraction pipeline of
`src/utils/documentUtils.ts` (vitalguard-health).

JavaScript strings are modelled as `List Char`; byte buffers as `List Nat`;
fallible collaborator calls (file reads, PDF parsing, zip loading, OCR) as
`Except`-valued inputs.  Each definition is a direct translation of the
corresponding source function.
-/

namespace VitalGuard

/-- A JavaScript string, modelled as a list of characters. -/
abbrev Str := List Char

/-- Conversion from Lean string literals to the model's string type. -/
def strOf (s : String) : Str := s.toList

/-- The ASCII whitespace characters recognized by JavaScript's `\s` class and
`String.prototype.trim` (the pipeline's data is ASCII, so the non-ASCII
whitespace code points are irrelevant). -/
def isJsWs (c : Char) : Bool :=
  c = ' ' || c = '\t' || c = '\n' || c = '\r' || c = '\x0b' || c = '\x0c'

/-- Drop trailing JS whitespace. -/
def trimEnd (s : Str) : Str := (s.reverse.dropWhile isJsWs).reverse

/-- Model of JavaScript `String.prototype.trim`. -/
def jsTrim (s : Str) : Str := trimEnd (s.dropWhile isJsWs)

/-- Model of JavaScript `Array.prototype.join(sep)`. -/
def joinSep (sep : Str) : List Str → Str
  | [] => []
  | [x] => x
  | x :: y :: xs => x ++ sep ++ joinSep sep (y :: xs)

/-- Concatenation of a list of strings (`join` with empty separator). -/
def joinL (l : List Str) : Str := l.foldr (· ++ ·) []

/-- Decimal rendering of a number, as JS template interpolation does. -/
def natStr (n : Nat) : Str := (Nat.repr n).toList

/-- Model of JavaScript `String.prototype.startsWith`. -/
def jsStartsWith (s pre : Str) : Bool := pre.isPrefixOf s

/-- Model of JavaScript `String.prototype.toLowerCase` (ASCII data). -/
def jsToLower (s : Str) : Str := s.map Char.toLower

/-! ## Legacy binary extractor (`extractBinaryDocText`) -/

/-- The byte-scanning loop of `extractBinaryDocText`: accumulate printable
ASCII (32–126) into the current run, map LF/CR (10/13) to a space, terminate
the run on any other byte, keeping terminated runs whose trimmed length
exceeds 3; the final run is flushed the same way at the end of input. -/
def binScan : List Nat → Str → List Str → List Str
  | [], current, chunks =>
    if 3 < (jsTrim current).length then chunks ++ [jsTrim current] else chunks
  | b :: rest, current, chunks =>
    if 32 ≤ b ∧ b ≤ 126 then
      binScan rest (current ++ [Char.ofNat b]) chunks
    else if b = 10 ∨ b = 13 then
      binScan rest (current ++ [' ']) chunks
    else if 3 < (jsTrim current).length then
      binScan rest [] (chunks ++ [jsTrim current])
    else
      binScan rest [] chunks

/-- Worker for whitespace collapsing; the flag records whether the scan is
inside a whitespace run whose single replacement space was already emitted. -/
def collapseWsAux : Bool → Str → Str
  | _, [] => []
  | inRun, c :: rest =>
    if isJsWs c then
      if inRun then collapseWsAux true rest
      else ' ' :: collapseWsAux true rest
    else c :: collapseWsAux false rest

/-- Model of `s.replace(/\s+/g, ' ')`: every maximal whitespace run becomes a
single space. -/
def collapseWs (s : Str) : Str := collapseWsAux false s

/-- Source function `extractBinaryDocText`: scan the bytes for printable runs,
join kept chunks with spaces, collapse repeated whitespace, truncate to the
first 15,000 characters. -/
def extractBinaryDocText (bytes : List Nat) : Str :=
  (collapseWs (joinSep [' '] (binScan bytes [] []))).take 15000

/-- One byte of the binary scan, described declaratively: printable bytes map
to their character, LF/CR map to a space, anything else is a run separator. -/
def mapByte (b : Nat) : Option Char :=
  if 32 ≤ b ∧ b ≤ 126 then some (Char.ofNat b)
  else if b = 10 ∨ b = 13 then some ' '
  else none

/-- Split a byte sequence into its (possibly empty) maximal runs of
printable/LF/CR bytes, separated by all other bytes. -/
def splitRuns : List Nat → List Str
  | [] => [[]]
  | b :: rest =>
    match mapByte b with
    | some c =>
      match splitRuns rest with
      | r :: rs => (c :: r) :: rs
      | [] => [[c]]
    | none => [] :: splitRuns rest

/-- The chunks the byte scan is specified to keep: each maximal run, trimmed,
provided its trimmed length strictly exceeds 3. -/
def specChunks (bytes : List Nat) : List Str :=
  ((splitRuns bytes).map jsTrim).filter (fun c => 3 < c.length)

/-- Declarative form of the legacy binary extraction result. -/
def binarySpec (bytes : List Nat) : Str :=
  (collapseWs (joinSep [' '] (specChunks bytes))).take 15000

/-! ## JavaScript `parseInt` -/

/-- Numeric value of a decimal digit character. -/
def digitVal (c : Char) : Nat := c.toNat - '0'.toNat

/-- Decimal value of a digit string. -/
def parseDecDigits (ds : Str) : Nat := ds.foldl (fun a c => a * 10 + digitVal c) 0

/-- Hexadecimal digit test, as in `parseInt`'s `0x` form. -/
def isHexDigitC (c : Char) : Bool :=
  c.isDigit || ('a' ≤ c && c ≤ 'f') || ('A' ≤ c && c ≤ 'F')

/-- Numeric value of a hexadecimal digit character. -/
def hexVal (c : Char) : Nat :=
  if c.isDigit then digitVal c
  else if 'a' ≤ c && c ≤ 'f' then c.toNat - 'a'.toNat + 10
  else c.toNat - 'A'.toNat + 10

/-- Model of JavaScript `parseInt(s)` with no radix argument: skip leading
whitespace, read an optional sign, accept a `0x`/`0X` hexadecimal prefix,
then take the longest digit prefix; `none` models `NaN` (no digits). -/
def parseIntJS (s : Str) : Option Int :=
  let s1 := s.dropWhile isJsWs
  let signed : Int × Str :=
    match s1 with
    | '-' :: r => (-1, r)
    | '+' :: r => (1, r)
    | _ => (1, s1)
  match signed.2 with
  | '0' :: x :: r =>
    if x = 'x' ∨ x = 'X' then
      let ds := r.takeWhile isHexDigitC
      if ds.isEmpty then none
      else some (signed.1 * (ds.foldl (fun a c => a * 16 + hexVal c) 0 : Nat))
    else
      some (signed.1 * parseDecDigits (('0' :: x :: r).takeWhile Char.isDigit))
  | other =>
    let ds := other.takeWhile Char.isDigit
    if ds.isEmpty then none else some (signed.1 * parseDecDigits ds)

/-! ## Regex-scan models

Each `content.match(/…/g)` call in the source is modelled by a leftmost,
non-overlapping scan: try the pattern at each position, and on success emit
the whole match and resume after it.  `scanWithF` uses the input length as
fuel; every step either advances one position or consumes a non-empty match,
so the fuel never runs out before the input does. -/

/-- Fuel-driven global scan with a position-wise matcher returning the match
and the remainder of the input after it. -/
def scanWithF (m : Str → Option (Str × Str)) : Nat → Str → List Str
  | 0, _ => []
  | _ + 1, [] => []
  | fuel + 1, c :: tl =>
    match m (c :: tl) with
    | some (a, rest) => a :: scanWithF m fuel rest
    | none => scanWithF m fuel tl

/-- Global scan of a string, as `String.prototype.match` with the `g` flag. -/
def scanWith (m : Str → Option (Str × Str)) (s : Str) : List Str :=
  scanWithF m s.length s

/-- Model of one step of `replace(/<[^>]+>/g, '')`: given the characters after
a `<`, recognize `[^>]+>` and return what follows the closing `>`. -/
def tagEnd? (rest : Str) : Option Str :=
  match rest.dropWhile (fun x => x ≠ '>') with
  | '>' :: tl => if (rest.takeWhile (fun x => x ≠ '>')).isEmpty then none else some tl
  | _ => none

/-- Fuel-driven model of `s.replace(/<[^>]+>/g, '')`. -/
def stripTagsF : Nat → Str → Str
  | 0, _ => []
  | _ + 1, [] => []
  | fuel + 1, c :: rest =>
    if c = '<' then
      match tagEnd? rest with
      | some tl => stripTagsF fuel tl
      | none => c :: stripTagsF fuel rest
    else c :: stripTagsF fuel rest

/-- Model of `s.replace(/<[^>]+>/g, '')` (tag stripping). -/
def stripTags (s : Str) : Str := stripTagsF s.length s

/-- Matcher for `/<t[^>]*>([^<]+)<\/t>/` at the current position (XLSX shared
strings); returns the whole match and the rest of the input. -/
def matchTAt (s : Str) : Option (Str × Str) :=
  if (strOf "<t").isPrefixOf s then
    let r1 := s.drop 2
    let attrs := r1.takeWhile (fun x => x ≠ '>')
    match r1.drop attrs.length with
    | '>' :: r3 =>
      let body := r3.takeWhile (fun x => x ≠ '<')
      if body.isEmpty then none
      else
        let r4 := r3.drop body.length
        if (strOf "</t>").isPrefixOf r4 then
          some (strOf "<t" ++ attrs ++ '>' :: body ++ strOf "</t>", r4.drop 4)
        else none
    | _ => none
  else none

/-- Matcher for `/<v>([^<]+)<\/v>/` at the current position (XLSX cells). -/
def matchVAt (s : Str) : Option (Str × Str) :=
  if (strOf "<v>").isPrefixOf s then
    let r1 := s.drop 3
    let body := r1.takeWhile (fun x => x ≠ '<')
    if body.isEmpty then none
    else
      let r2 := r1.drop body.length
      if (strOf "</v>").isPrefixOf r2 then
        some (strOf "<v>" ++ body ++ strOf "</v>", r2.drop 4)
      else none
  else none

/-- Matcher for `/<a:t>([^<]*)<\/a:t>/` at the current position (PPTX text
runs); the body may be empty. -/
def matchATAt (s : Str) : Option (Str × Str) :=
  if (strOf "<a:t>").isPrefixOf s then
    let r1 := s.drop 5
    let body := r1.takeWhile (fun x => x ≠ '<')
    let r2 := r1.drop body.length
    if (strOf "</a:t>").isPrefixOf r2 then
      some (strOf "<a:t>" ++ body ++ strOf "</a:t>", r2.drop 6)
    else none
  else none

/-- Leftmost occurrence of `pat`: split the input into the part before the
first occurrence and the part after it. -/
def splitOnceAt (pat : Str) : Str → Option (Str × Str)
  | [] => if pat.isEmpty then some ([], []) else none
  | c :: tl =>
    if pat.isPrefixOf (c :: tl) then some ([], (c :: tl).drop pat.length)
    else
      match splitOnceAt pat tl with
      | some (pre, post) => some (c :: pre, post)
      | none => none

/-- Matcher for `/<row[^>]*>[\s\S]*?<\/row>/` at the current position: the
lazy middle reaches the first `</row>` after the opening tag. -/
def matchRowAt (s : Str) : Option (Str × Str) :=
  if (strOf "<row").isPrefixOf s then
    let r1 := s.drop 4
    let attrs := r1.takeWhile (fun x => x ≠ '>')
    match r1.drop attrs.length with
    | '>' :: r2 =>
      match splitOnceAt (strOf "</row>") r2 with
      | some (mid, rest) =>
        some (strOf "<row" ++ attrs ++ '>' :: mid ++ strOf "</row>", rest)
      | none => none
    | _ => none
  else none

/-! ## Zip archives -/

/-- A zip archive as seen through JSZip: entries in enumeration order, each a
path paired with its decoded text content.  `Object.keys(zip.files)` is the
list of paths; `zip.file(p)` is lookup by path. -/
def Zip : Type := List (Str × Str)

/-- Entry paths of an archive, in enumeration order. -/
def zipKeys (z : Zip) : List Str := z.map Prod.fst

/-- Model of `zip.file(path)?.async('text')`. -/
def zipFile (z : Zip) (path : Str) : Option Str := List.lookup path z

/-! ## PPTX extractor (`extractPptxText`) -/

/-- Test for `/ppt\/slides\/slide\d+\.xml/` at the current position. -/
def slidePathTestAt (s : Str) : Bool :=
  (strOf "ppt/slides/slide").isPrefixOf s &&
    (let rest := s.drop 16
     let ds := rest.takeWhile Char.isDigit
     !ds.isEmpty && (strOf ".xml").isPrefixOf (rest.drop ds.length))

/-- Model of `/ppt\/slides\/slide\d+\.xml/.test(name)` (unanchored). -/
def slidePathTest : Str → Bool
  | [] => false
  | c :: tl => slidePathTestAt (c :: tl) || slidePathTest tl

/-- The first `/slide(\d+)/` capture in a string, as `name.match(/slide(\d+)/)?.[1]`. -/
def findSlideDigits : Str → Option Str
  | [] => none
  | c :: tl =>
    if (strOf "slide").isPrefixOf (c :: tl) then
      let ds := ((c :: tl).drop 5).takeWhile Char.isDigit
      if ds.isEmpty then findSlideDigits tl else some ds
    else findSlideDigits tl

/-- The numeric sort key of a slide path:
`parseInt(name.match(/slide(\d+)/)?.[1] || '0')`. -/
def slideKey (name : Str) : Int :=
  (parseIntJS ((findSlideDigits name).getD (strOf "0"))).getD 0

/-- The slide files of an archive: paths matching the slide pattern, sorted by
numeric slide index.  `Array.prototype.sort` is stable, so it coincides with
stable insertion sort by the key. -/
def slideFilesOf (z : Zip) : List Str :=
  List.insertionSort (fun a b => slideKey a ≤ slideKey b)
    ((zipKeys z).filter slidePathTest)

/-- One slide's contribution: read the slide XML, collect the `<a:t>` runs,
strip markup, join with spaces; if the trimmed text is non-empty, emit the
slide's numeric index together with the `[Slide N]`-prefixed line.  The index
component instruments the emitted string with its sort key for the ordering
theorem; the string component is exactly what the source pushes. -/
def pptxSlideEntry (z : Zip) (path : Str) : Option (Int × Str) :=
  match zipFile z path with
  | some content =>
    if content.isEmpty then none
    else
      let textElements := scanWith matchATAt content
      let slideText := joinSep [' '] (textElements.map stripTags)
      if (jsTrim slideText).isEmpty then none
      else
        let numStr := (findSlideDigits path).getD (strOf "undefined")
        some (slideKey path, strOf "[Slide " ++ numStr ++ strOf "] " ++ jsTrim slideText)
  | none => none

/-- The emitted slide lines with their numeric indices, in emission order. -/
def pptxSlidePairs (z : Zip) : List (Int × Str) :=
  (slideFilesOf z).filterMap (pptxSlideEntry z)

/-- The `texts` array of `extractPptxText`. -/
def pptxTexts (z : Zip) : List Str := (pptxSlidePairs z).map Prod.snd

/-- Source function `extractPptxText` (body inside its `try`): slide lines joined by newline. -/
def extractPptxText (z : Zip) : Str := joinSep ['\n'] (pptxTexts z)

/-! ## XLSX extractor (`extractXlsxText`) -/

/-- Test for `/xl\/worksheets\/sheet\d+\.xml/` at the current position. -/
def sheetPathTestAt (s : Str) : Bool :=
  (strOf "xl/worksheets/sheet").isPrefixOf s &&
    (let rest := s.drop 19
     let ds := rest.takeWhile Char.isDigit
     !ds.isEmpty && (strOf ".xml").isPrefixOf (rest.drop ds.length))

/-- Model of `/xl\/worksheets\/sheet\d+\.xml/.test(name)` (unanchored). -/
def sheetPathTest : Str → Bool
  | [] => false
  | c :: tl => sheetPathTestAt (c :: tl) || sheetPathTest tl

/-- Lexicographic comparison on code units, the default `Array.prototype.sort`
order for strings (the data here is ASCII). -/
def strLe : Str → Str → Bool
  | [], _ => true
  | _ :: _, [] => false
  | a :: as, b :: bs =>
    if a.toNat < b.toNat then true
    else if b.toNat < a.toNat then false
    else strLe as bs

/-- The shared-string table: every `/<t[^>]*>([^<]+)<\/t>/g` match of
`xl/sharedStrings.xml`, tags stripped, in order of appearance; empty when the
part is absent. -/
def xlsxSharedStrings (z : Zip) : List Str :=
  match zipFile z (strOf "xl/sharedStrings.xml") with
  | some content => (scanWith matchTAt content).map stripTags
  | none => []

/-- The source's per-cell resolution:
`!isNaN(idx) && sharedStrings[idx] ? sharedStrings[idx] : val`.  A negative
or out-of-range index reads `undefined` and an empty table entry is falsy;
both fall back to the raw value. -/
def resolveCell (table : List Str) (val : Str) : Str :=
  match parseIntJS val with
  | none => val
  | some i =>
    if i < 0 then val
    else
      let e := table.getD i.toNat []
      if e.isEmpty then val else e

/-- The rows contributed by one worksheet: each `<row>` block's `<v>` values,
resolved against the shared-string table and joined by tabs; rows with no
values are skipped. -/
def xlsxRowsOfSheet (table : List Str) (content : Str) : List Str :=
  (scanWith matchRowAt content).filterMap fun row =>
    let values := (scanWith matchVAt row).map (fun c => resolveCell table (stripTags c))
    if values.isEmpty then none else some (joinSep ['\t'] values)

/-- The sorted worksheet paths of an archive. -/
def sheetFilesOf (z : Zip) : List Str :=
  List.insertionSort (fun a b => strLe a b = true) ((zipKeys z).filter sheetPathTest)

/-- All rows of the workbook, across sheets in sorted order; a missing or
empty sheet part contributes nothing (`if (content)` truthiness). -/
def xlsxRows (z : Zip) (table : List Str) : List Str :=
  (sheetFilesOf z).foldl (fun acc path =>
    match zipFile z path with
    | some content =>
      if content.isEmpty then acc else acc ++ xlsxRowsOfSheet table content
    | none => acc) []

/-- Source function `extractXlsxText` (body inside its `try`): rows joined by newline, falling
back to the space-joined shared strings when that join is the empty string
(`rows.join('\n') || sharedStrings.join(' ')`). -/
def extractXlsxText (z : Zip) : Str :=
  let table := xlsxSharedStrings z
  let joined := joinSep ['\n'] (xlsxRows z table)
  if joined.isEmpty then joinSep [' '] table else joined

/-! ## PDF extractor (`extractPdfText`) -/

/-- A successfully opened PDF as exposed by the pdf.js collaborator: one list
of text-content item strings per page (pages in order, `pdf.numPages` is the
length), and the OCR collaborator's recognized text for a page rendered at a
given scale (`Tesseract.recognize` on the page's canvas blob). -/
structure PdfDoc where
  pages : List (List Str)
  ocr : Nat → ℚ → Str

/-- The `[Page i] ` prefix used by both phases. -/
def pageLabel (i : Nat) : Str := strOf "[Page " ++ natStr i ++ strOf "] "

/-- Phase A accumulation: for each page `i`, join its text items with single
spaces and, when the page text has non-whitespace content, append
`[Page i] ` + text + newline to the running buffer. -/
def phaseABuf (pages : List (List Str)) : Str :=
  (List.enumFrom 1 pages).foldl (fun acc p =>
    let pageText := joinSep [' '] p.2
    if (jsTrim pageText).isEmpty then acc
    else acc ++ pageLabel p.1 ++ pageText ++ ['\n']) []

/-- Declarative form of the Phase A buffer: concatenation over pages of the
labelled page line, skipping whitespace-only pages. -/
def phaseASpec (pages : List (List Str)) : Str :=
  joinL ((List.enumFrom 1 pages).map fun p =>
    let pageText := joinSep [' '] p.2
    if (jsTrim pageText).isEmpty then [] else pageLabel p.1 ++ pageText ++ ['\n'])

/-- Source function `extractPdfText` (body inside its `try`), instrumented with the list of
OCR invocations `(page index, render scale)` it performs.  Phase A returns
the trimmed buffer when it has content and performs no OCR; otherwise Phase B
OCRs pages `1 .. min(numPages, 10)` at scale 2.0, keeps the non-empty trimmed
results with their `[Page i] ` prefix, and joins them with blank lines. -/
def extractPdfText (d : PdfDoc) : Str × List (Nat × ℚ) :=
  let fullText := phaseABuf d.pages
  if !(jsTrim fullText).isEmpty then (jsTrim fullText, [])
  else
    let ks := List.range' 1 (min d.pages.length 10)
    let ocrTexts := ks.filterMap fun i =>
      let t := d.ocr i 2
      if (jsTrim t).isEmpty then none else some (pageLabel i ++ jsTrim t)
    (joinSep (strOf "\n\n") ocrTexts, ks.map fun i => (i, (2 : ℚ)))

/-! ## Orchestrator (`extractDocumentText`) -/

/-- An uploaded file together with the outcomes of the fallible collaborator
calls the pipeline can make on it: `file.text()`, whole-file OCR
(`Tesseract.recognize(file, 'eng')`), pdf.js parsing, the mammoth DOCX
conversion, JSZip loading, and `file.arrayBuffer()` for the byte scan.
`Except.error` models a thrown exception. -/
structure JsFile where
  name : Str
  type : Str
  textR : Except Str Str
  imageOcrR : Except Str Str
  pdfR : Except Str PdfDoc
  docxR : Except Str Str
  zipR : Except Str Zip
  bytesR : Except Str (List Nat)

/-- The OOXML media type for DOCX. -/
def docxMime : Str :=
  strOf "application/vnd.openxmlformats-officedocument.wordprocessingml.document"

/-- The OOXML media type for PPTX. -/
def pptxMime : Str :=
  strOf "application/vnd.openxmlformats-officedocument.presentationml.presentation"

/-- The OOXML media type for XLSX. -/
def xlsxMime : Str :=
  strOf "application/vnd.openxmlformats-officedocument.spreadsheetml.sheet"

/-- The plain-text extension set of the orchestrator. -/
def plainExts : List Str :=
  [strOf "txt", strOf "csv", strOf "md", strOf "json", strOf "xml",
   strOf "html", strOf "htm", strOf "log", strOf "rtf"]

/-- Model of `name.split('.')`. -/
def splitOnDot : Str → List Str
  | [] => [[]]
  | c :: rest =>
    if c = '.' then [] :: splitOnDot rest
    else
      match splitOnDot rest with
      | r :: rs => (c :: r) :: rs
      | [] => [[c]]

/-- The orchestrator's extension:
`file.name.split('.').pop()?.toLowerCase() || ''`. -/
def jsExt (name : Str) : Str := jsToLower ((splitOnDot name).getLastD [])

/-- Wrapper `extractPdfText` as called by the orchestrator: its internal `catch`
converts any pdf.js/OCR failure to the empty string. -/
def extractPdfTextF (f : JsFile) : Str :=
  match f.pdfR with
  | Except.ok d => (extractPdfText d).1
  | Except.error _ => []

/-- Wrapper `extractDocxText`: mammoth's raw text, empty on failure (internal catch). -/
def extractDocxTextF (f : JsFile) : Str :=
  match f.docxR with
  | Except.ok s => s
  | Except.error _ => []

/-- Wrapper `extractPptxText` as called by the orchestrator (internal catch). -/
def extractPptxTextF (f : JsFile) : Str :=
  match f.zipR with
  | Except.ok z => extractPptxText z
  | Except.error _ => []

/-- Wrapper `extractXlsxText` as called by the orchestrator (internal catch). -/
def extractXlsxTextF (f : JsFile) : Str :=
  match f.zipR with
  | Except.ok z => extractXlsxText z
  | Except.error _ => []

/-- Wrapper `extractBinaryDocText` as called by the orchestrator (internal catch). -/
def extractBinaryDocTextF (f : JsFile) : Str :=
  match f.bytesR with
  | Except.ok b => extractBinaryDocText b
  | Except.error _ => []

/-- The `try` body of `extractDocumentText`: classify by extension and media
type, in source order, and dispatch to the matching extractor; exceptions of
the plain-text read and the whole-image OCR propagate to the orchestrator's
own catch. -/
def extractDocumentTextE (f : JsFile) : Except Str Str :=
  let ext := jsExt f.name
  if plainExts.contains ext || jsStartsWith f.type (strOf "text/") then
    f.textR
  else if jsStartsWith f.type (strOf "image/") then
    f.imageOcrR
  else if ext == strOf "pdf" || f.type == strOf "application/pdf" then
    Except.ok (extractPdfTextF f)
  else if ext == strOf "docx" || f.type == docxMime then
    Except.ok (extractDocxTextF f)
  else if ext == strOf "pptx" || f.type == pptxMime then
    Except.ok (extractPptxTextF f)
  else if ext == strOf "xlsx" || f.type == xlsxMime then
    Except.ok (extractXlsxTextF f)
  else if [strOf "doc", strOf "ppt", strOf "xls"].contains ext then
    Except.ok (extractBinaryDocTextF f)
  else
    Except.ok []

/-- The orchestrator with its failure boundary applied: the `catch` turns any
thrown error into `Except.ok ''`. -/
def extractDocumentTextX (f : JsFile) : Except Str Str :=
  match extractDocumentTextE f with
  | Except.ok s => Except.ok s
  | Except.error _ => Except.ok []

/-- The public entry point `extractDocumentText`: always a plain string. -/
def extractDocumentText (f : JsFile) : Str :=
  match extractDocumentTextX f with
  | Except.ok s => s
  | Except.error _ => []

/-- The orchestrator's `Unsupported` outcome: no classification rule applies. -/
def unsupportedFile (f : JsFile) : Bool :=
  let ext := jsExt f.name
  !(plainExts.contains ext || jsStartsWith f.type (strOf "text/")) &&
  !(jsStartsWith f.type (strOf "image/")) &&
  !(ext == strOf "pdf" || f.type == strOf "application/pdf") &&
  !(ext == strOf "docx" || f.type == docxMime) &&
  !(ext == strOf "pptx" || f.type == pptxMime) &&
  !(ext == strOf "xlsx" || f.type == xlsxMime) &&
  !([strOf "doc", strOf "ppt", strOf "xls"].contains ext)

/-! ## Module state

The only module-level mutable binding of `documentUtils.ts` is
`pdfjsLib.GlobalWorkerOptions.workerSrc`, assigned once at module load; no
extraction function reads or writes module state, so the state-threaded
orchestrator passes it through unchanged. -/

/-- The module-level mutable state of `documentUtils.ts`. -/
structure ModuleState where
  workerSrc : Str

/-- The orchestrator as a state-threading computation over the module state;
the source performs no assignment to module state inside any extraction
function, so the state component is returned unchanged. -/
def extractDocumentTextSt (f : JsFile) (st : ModuleState) : Str × ModuleState :=
  (extractDocumentText f, st)

/-! ## Specification-side definitions for the refinement claims -/

/-- The claim's cell resolution rule: when the value parses as an integer
index into the shared-string table (JS `parseInt` semantics), substitute the
table entry; otherwise use the raw value. -/
def resolveSpec (table : List Str) (val : Str) : Str :=
  match parseIntJS val with
  | none => val
  | some i => if 0 ≤ i ∧ i.toNat < table.length then table.getD i.toNat [] else val

/-- Variant of `xlsxRowsOfSheet` with the claim's resolution rule. -/
def xlsxRowsOfSheetSpec (table : List Str) (content : Str) : List Str :=
  (scanWith matchRowAt content).filterMap fun row =>
    let values := (scanWith matchVAt row).map (fun c => resolveSpec table (stripTags c))
    if values.isEmpty then none else some (joinSep ['\t'] values)

/-- Variant of `xlsxRows` with the claim's resolution rule. -/
def xlsxRowsSpec (z : Zip) (table : List Str) : List Str :=
  (sheetFilesOf z).foldl (fun acc path =>
    match zipFile z path with
    | some content =>
      if content.isEmpty then acc else acc ++ xlsxRowsOfSheetSpec table content
    | none => acc) []

/-- Variant of `extractXlsxText` with every cell resolved by the claim's rule. -/
def extractXlsxTextSpec (z : Zip) : Str :=
  let table := xlsxSharedStrings z
  let joined := joinSep ['\n'] (xlsxRowsSpec z table)
  if joined.isEmpty then joinSep [' '] table else joined

/-! ## Concrete instances used by witnesses and counterexamples -/

/-- An unsupported file whose every collaborator call fails. -/
def fileAllFail : JsFile :=
  ⟨strOf "virus.bin", strOf "application/octet-stream",
    Except.error (strOf "decode"), Except.error (strOf "ocr"),
    Except.error (strOf "pdf"), Except.error (strOf "docx"),
    Except.error (strOf "zip"), Except.error (strOf "bytes")⟩

/-- A PNG image whose OCR result carries surrounding whitespace. -/
def fileImage : JsFile :=
  ⟨strOf "scan.png", strOf "image/png",
    Except.error (strOf "decode"), Except.ok (strOf "hello \n"),
    Except.error (strOf "pdf"), Except.error (strOf "docx"),
    Except.error (strOf "zip"), Except.error (strOf "bytes")⟩

/-- A plain-text file: `file.text()` succeeds with untouched content. -/
def filePlain : JsFile :=
  ⟨strOf "a.txt", strOf "application/octet-stream",
    Except.ok (strOf "  raw text \n"), Except.error (strOf "ocr"),
    Except.error (strOf "pdf"), Except.error (strOf "docx"),
    Except.error (strOf "zip"), Except.error (strOf "bytes")⟩

/-- A dotless file named `doc` whose declared media type is
`application/pdf`, with both a parseable PDF and readable raw bytes. -/
def fileDotlessDoc : JsFile :=
  ⟨strOf "doc", strOf "application/pdf",
    Except.error (strOf "decode"), Except.error (strOf "ocr"),
    Except.ok ⟨[[strOf "PDF", strOf "CONTENT"]], fun _ _ => []⟩,
    Except.error (strOf "docx"), Except.error (strOf "zip"),
    Except.ok ((strOf "Diagnosis: Migraine").map Char.toNat ++ [0])⟩

/-- A dotless file named `pdf` with a generic binary media type. -/
def fileDotlessPdf : JsFile :=
  ⟨strOf "pdf", strOf "application/octet-stream",
    Except.error (strOf "decode"), Except.error (strOf "ocr"),
    Except.ok ⟨[[strOf "PDF", strOf "CONTENT"]], fun _ _ => []⟩,
    Except.error (strOf "docx"), Except.error (strOf "zip"),
    Except.ok ((strOf "Diagnosis: Migraine").map Char.toNat ++ [0])⟩

/-- A dotless file named `doc` with a generic binary media type. -/
def fileDotlessDocOctet : JsFile :=
  ⟨strOf "doc", strOf "application/octet-stream",
    Except.error (strOf "decode"), Except.error (strOf "ocr"),
    Except.ok ⟨[[strOf "PDF", strOf "CONTENT"]], fun _ _ => []⟩,
    Except.error (strOf "docx"), Except.error (strOf "zip"),
    Except.ok ((strOf "Diagnosis: Migraine").map Char.toNat ++ [0])⟩

/-- A one-page PDF with an embedded text layer. -/
def pdfWithText : PdfDoc := ⟨[[strOf "hello"]], fun _ _ => strOf "X"⟩

/-- A two-page PDF with no embedded text, whose first page OCRs to text. -/
def pdfScanned : PdfDoc :=
  ⟨[[], [strOf "  "]], fun i _ => if i = 1 then strOf " ocr one " else strOf ""⟩

/-- A PPTX archive enumerating slides 10, 2 and 9 out of numeric order. -/
def zipSlides : Zip :=
  [(strOf "ppt/slides/slide10.xml", strOf "<a:t>ten</a:t>"),
   (strOf "ppt/slides/slide2.xml", strOf "<a:t>two</a:t>"),
   (strOf "[Content_Types].xml", strOf "<a:t>nope</a:t>"),
   (strOf "ppt/slides/slide9.xml", strOf "<a:t>nine</a:t>")]

/-- An XLSX archive whose cells reference the shared-string table. -/
def zipXlsx : Zip :=
  [(strOf "xl/sharedStrings.xml", strOf "<t>Alpha</t><t>Beta</t>"),
   (strOf "xl/worksheets/sheet1.xml",
    strOf "<row r=\"1\"><c><v>0</v></c><c><v>42</v></c><c><v>1</v></c></row>")]

/-! ## Helper lemmas -/

theorem splitRuns_ne_nil (bytes : List Nat) : splitRuns bytes ≠ [] := by
  cases bytes with
  | nil => simp [splitRuns]
  | cons b rest =>
    simp only [splitRuns]
    cases mapByte b with
    | some c =>
      cases h : splitRuns rest with
      | nil => simp
      | cons r rs => simp
    | none => simp

/-- Generalized correspondence between the imperative byte scan and the
run-splitting description: the pending run is prepended to the first run. -/
theorem binScan_eq (bytes : List Nat) : ∀ current chunks,
    binScan bytes current chunks =
      chunks ++ (((match splitRuns bytes with
        | r :: rs => (current ++ r) :: rs
        | [] => [current]).map jsTrim).filter (fun c => 3 < c.length)) := by
  induction bytes with
  | nil =>
    intro current chunks
    simp only [binScan, splitRuns, List.map_cons, List.map_nil, List.append_nil,
      List.filter]
    by_cases h : 3 < (jsTrim current).length
    · simp [h]
    · simp [h]
  | cons b rest ih =>
    intro current chunks
    simp only [binScan, splitRuns]
    by_cases h1 : 32 ≤ b ∧ b ≤ 126
    · rw [if_pos h1]
      rw [ih (current ++ [Char.ofNat b]) chunks]
      have hmb : mapByte b = some (Char.ofNat b) := by simp [mapByte, h1]
      rw [hmb]
      cases h : splitRuns rest with
      | nil => exact absurd h (splitRuns_ne_nil rest)
      | cons r rs => simp
    · rw [if_neg h1]
      by_cases h2 : b = 10 ∨ b = 13
      · rw [if_pos h2]
        rw [ih (current ++ [' ']) chunks]
        have hmb : mapByte b = some ' ' := by
          simp only [mapByte, if_neg h1]
          rw [if_pos h2]
        rw [hmb]
        cases h : splitRuns rest with
        | nil => exact absurd h (splitRuns_ne_nil rest)
        | cons r rs => simp
      · rw [if_neg h2]
        have hmb : mapByte b = none := by
          simp only [mapByte, if_neg h1]
          rw [if_neg h2]
        rw [hmb]
        cases h : splitRuns rest with
        | nil => exact absurd h (splitRuns_ne_nil rest)
        | cons r rs =>
          by_cases h3 : 3 < (jsTrim current).length
          · rw [if_pos h3, ih [] (chunks ++ [jsTrim current])]
            rw [h]
            simp [List.filter, h3]
          · rw [if_neg h3, ih [] chunks]
            rw [h]
            simp [List.filter, h3]

/-- A left fold that appends a rendering of each element equals the
concatenation of the renderings. -/
theorem foldl_emit {α : Type} (g : α → Str) : ∀ (l : List α) (acc : Str),
    l.foldl (fun a x => a ++ g x) acc = acc ++ joinL (l.map g) := by
  intro l
  induction l with
  | nil => intro acc; simp [joinL]
  | cons x xs ih =>
    intro acc
    simp only [List.foldl_cons, List.map_cons, joinL, List.foldr_cons]
    rw [ih]
    simp [joinL, List.append_assoc]

/-- The Phase A accumulation loop builds exactly the declarative buffer. -/
theorem phaseABuf_eq_spec (pages : List (List Str)) :
    phaseABuf pages = phaseASpec pages := by
  unfold phaseABuf phaseASpec
  rw [List.foldl_ext _ (fun (a : Str) p =>
      a ++ (if (jsTrim (joinSep [' '] p.2)).isEmpty then []
            else pageLabel p.1 ++ joinSep [' '] p.2 ++ ['\n']))]
  · rw [foldl_emit]
    simp
  · intro a p _
    by_cases h : (jsTrim (joinSep [' '] p.2)).isEmpty <;> simp [h, List.append_assoc]

/-! ## Claim theorems -/

/-- C6: for every byte sequence, the legacy binary extractor accumulates runs
of printable-ASCII bytes (32–126), maps bytes 10 and 13 to a space without
terminating the run, terminates the run on any other byte, keeps a run only
when its trimmed length strictly exceeds 3, and returns the kept chunks
joined with spaces, with repeated whitespace collapsed, truncated to the
first 15,000 characters — i.e. it equals the declarative run-splitting
description `binarySpec`. -/
theorem extractBinaryDocText_runs (bytes : List Nat) :
    extractBinaryDocText bytes = binarySpec bytes := by
  unfold extractBinaryDocText binarySpec specChunks
  rw [binScan_eq]
  cases h : splitRuns bytes with
  | nil => exact absurd h (splitRuns_ne_nil bytes)
  | cons r rs => simp

/-- C9: the orchestrator is deterministic across calls — threading the module
state through two successive invocations on the same file yields the same
output both times, and the state is untouched. -/
theorem extractDocumentText_deterministic (f : JsFile) (st : ModuleState) :
    (extractDocumentTextSt f ((extractDocumentTextSt f st).2)).1
        = (extractDocumentTextSt f st).1
    ∧ (extractDocumentTextSt f st).2 = st :=
  ⟨rfl, rfl⟩

/-- C2: whenever the Phase A buffer (per-page items joined by single spaces,
non-empty pages prefixed `[Page i] ` and newline-terminated) has
non-whitespace content, the PDF extractor returns that buffer trimmed and
performs zero OCR calls. -/
theorem extractPdfText_phaseA_skips_ocr (d : PdfDoc)
    (h : (jsTrim (phaseASpec d.pages)).isEmpty = false) :
    extractPdfText d = (jsTrim (phaseASpec d.pages), []) := by
  simp only [extractPdfText]
  rw [phaseABuf_eq_spec, h]
  simp

theorem extractPdfText_phaseA_skips_ocr_witness :
    extractPdfText pdfWithText = (strOf "[Page 1] hello", []) :=
  (extractPdfText_phaseA_skips_ocr pdfWithText (by decide)).trans (by decide)

/-- C3: when the Phase A buffer is empty after trimming, the PDF extractor
OCRs exactly pages `1 .. min(N, 10)` in order at scale 2.0, prefixes each
non-empty trimmed OCR result with `[Page i] `, joins the results with blank
lines, and never touches a page beyond the tenth. -/
theorem extractPdfText_ocr_fallback (d : PdfDoc)
    (h : (jsTrim (phaseASpec d.pages)).isEmpty = true) :
    extractPdfText d =
      (joinSep (strOf "\n\n")
        ((List.range' 1 (min d.pages.length 10)).filterMap fun i =>
          if (jsTrim (d.ocr i 2)).isEmpty then none
          else some (pageLabel i ++ jsTrim (d.ocr i 2))),
       (List.range' 1 (min d.pages.length 10)).map fun i => (i, (2 : ℚ)))
    ∧ ∀ p ∈ (extractPdfText d).2, 1 ≤ p.1 ∧ p.1 ≤ min d.pages.length 10 := by
  have key : extractPdfText d =
      (joinSep (strOf "\n\n")
        ((List.range' 1 (min d.pages.length 10)).filterMap fun i =>
          if (jsTrim (d.ocr i 2)).isEmpty then none
          else some (pageLabel i ++ jsTrim (d.ocr i 2))),
       (List.range' 1 (min d.pages.length 10)).map fun i => (i, (2 : ℚ))) := by
    simp only [extractPdfText]
    rw [phaseABuf_eq_spec, h]
    simp
  refine ⟨key, ?_⟩
  intro p hp
  rw [key] at hp
  simp only [List.mem_map] at hp
  obtain ⟨i, hi, rfl⟩ := hp
  have hb := List.mem_range'_1.mp hi
  exact ⟨hb.1, by omega⟩

theorem extractPdfText_ocr_fallback_witness :
    extractPdfText pdfScanned = (strOf "[Page 1] ocr one", [(1, (2 : ℚ)), (2, 2)]) :=
  ((extractPdfText_ocr_fallback pdfScanned (by decide)).1).trans (by decide)

/-- The orchestrator's result is its `try` body's value, or the empty string
when the body threw. -/
theorem extractDocumentText_eq (f : JsFile) :
    extractDocumentText f =
      match extractDocumentTextE f with
      | Except.ok s => s
      | Except.error _ => [] := by
  unfold extractDocumentText extractDocumentTextX
  cases extractDocumentTextE f <;> rfl

/-- C1: the orchestrator never throws — its failure boundary always yields
`Except.ok`; a thrown body, a file on which every collaborator call fails,
and an unsupported classification all produce the empty string. -/
theorem extractDocumentText_never_throws (f : JsFile) :
    extractDocumentTextX f = Except.ok (extractDocumentText f)
    ∧ (∀ e, extractDocumentTextE f = Except.error e → extractDocumentText f = [])
    ∧ ((f.textR.isOk = false ∧ f.imageOcrR.isOk = false ∧ f.pdfR.isOk = false ∧
        f.docxR.isOk = false ∧ f.zipR.isOk = false ∧ f.bytesR.isOk = false) →
        extractDocumentText f = [])
    ∧ (unsupportedFile f = true → extractDocumentText f = []) := by
  refine ⟨?_, ?_, ?_, ?_⟩
  · unfold extractDocumentText
    cases hE : extractDocumentTextX f with
    | ok s => rfl
    | error e =>
      exfalso
      unfold extractDocumentTextX at hE
      cases h2 : extractDocumentTextE f <;> simp [h2] at hE
  · intro e he
    rw [extractDocumentText_eq, he]
  · rintro ⟨h1, h2, h3, h4, h5, h6⟩
    obtain ⟨e1, ht⟩ : ∃ e, f.textR = Except.error e := by
      cases h : f.textR
      · exact ⟨_, rfl⟩
      · rw [h] at h1; simp [Except.isOk, Except.toBool] at h1
    obtain ⟨e2, hi⟩ : ∃ e, f.imageOcrR = Except.error e := by
      cases h : f.imageOcrR
      · exact ⟨_, rfl⟩
      · rw [h] at h2; simp [Except.isOk, Except.toBool] at h2
    obtain ⟨e3, hp⟩ : ∃ e, f.pdfR = Except.error e := by
      cases h : f.pdfR
      · exact ⟨_, rfl⟩
      · rw [h] at h3; simp [Except.isOk, Except.toBool] at h3
    obtain ⟨e4, hd⟩ : ∃ e, f.docxR = Except.error e := by
      cases h : f.docxR
      · exact ⟨_, rfl⟩
      · rw [h] at h4; simp [Except.isOk, Except.toBool] at h4
    obtain ⟨e5, hz⟩ : ∃ e, f.zipR = Except.error e := by
      cases h : f.zipR
      · exact ⟨_, rfl⟩
      · rw [h] at h5; simp [Except.isOk, Except.toBool] at h5
    obtain ⟨e6, hb⟩ : ∃ e, f.bytesR = Except.error e := by
      cases h : f.bytesR
      · exact ⟨_, rfl⟩
      · rw [h] at h6; simp [Except.isOk, Except.toBool] at h6
    rw [extractDocumentText_eq]
    simp only [extractDocumentTextE, ht, hi, extractPdfTextF, hp, extractDocxTextF,
      hd, extractPptxTextF, extractXlsxTextF, hz, extractBinaryDocTextF, hb]
    split
    next s heq =>
      repeat' split at heq
      all_goals simp_all
    next e heq => rfl
  · intro h
    simp only [unsupportedFile, Bool.and_eq_true, Bool.not_eq_true'] at h
    obtain ⟨⟨⟨⟨⟨⟨h1, h2⟩, h3⟩, h4⟩, h5⟩, h6⟩, h7⟩ := h
    rw [extractDocumentText_eq]
    simp only [extractDocumentTextE, h1, h2, h3, h4, h5, h6, h7]
    simp

theorem extractDocumentText_never_throws_witness :
    extractDocumentText fileAllFail = [] :=
  (extractDocumentText_never_throws fileAllFail).2.2.1 (by decide)

/-- C7 counterexample: for the image `fileImage` the OCR engine recognizes
`"hello \n"`, and the orchestrator returns exactly that string, which differs
from its trimmed form — so the result is not trimmed as the claim states. -/
theorem image_ocr_not_trimmed :
    extractDocumentText fileImage = strOf "hello \n"
    ∧ extractDocumentText fileImage ≠ jsTrim (strOf "hello \n") := by
  constructor
  · decide
  · decide

/-- C7 (amended): for every file classified as an image (media type prefix
`image/` and not classified plain-text first), the orchestrator returns the
OCR engine's recognized text as-is, without trimming. -/
theorem image_ocr_returns_raw_text (f : JsFile) (t : Str)
    (hplain : (plainExts.contains (jsExt f.name)
        || jsStartsWith f.type (strOf "text/")) = false)
    (himg : jsStartsWith f.type (strOf "image/") = true)
    (hocr : f.imageOcrR = Except.ok t) :
    extractDocumentText f = t := by
  rw [extractDocumentText_eq]
  simp only [extractDocumentTextE, hplain, himg, hocr]
  simp

theorem image_ocr_returns_raw_text_witness :
    extractDocumentText fileImage = strOf "hello \n" :=
  image_ocr_returns_raw_text fileImage (strOf "hello \n")
    (by decide) (by decide) rfl

/-- C8: for every file whose lowercase extension is in the plain-text set or
whose media type starts with `text/`, the orchestrator returns the decoded
file text (`file.text()`) exactly, with no transformation. -/
theorem plain_text_exact (f : JsFile) (s : Str)
    (hplain : plainExts.contains (jsExt f.name) = true
        ∨ jsStartsWith f.type (strOf "text/") = true)
    (htext : f.textR = Except.ok s) :
    extractDocumentText f = s := by
  have hc : (plainExts.contains (jsExt f.name)
      || jsStartsWith f.type (strOf "text/")) = true := by
    rcases hplain with h | h
    · rw [h, Bool.true_or]
    · rw [h, Bool.or_true]
  rw [extractDocumentText_eq]
  simp only [extractDocumentTextE, hc, htext]
  simp

theorem plain_text_exact_witness :
    extractDocumentText filePlain = strOf "  raw text \n" :=
  plain_text_exact filePlain (strOf "  raw text \n") (Or.inl (by decide)) rfl

theorem splitOnDot_no_dot (name : Str) (h : '.' ∉ name) : splitOnDot name = [name] := by
  induction name with
  | nil => rfl
  | cons c tl ih =>
    simp only [List.mem_cons, not_or] at h
    obtain ⟨h1, h2⟩ := h
    simp only [splitOnDot]
    rw [if_neg (Ne.symm h1)]
    rw [ih h2]

/-- C10 counterexample: the dotless file named `doc` with the non-text,
non-image media type `application/pdf` is dispatched to the PDF extractor,
not to the legacy binary extractor as the claim states — its result is the
PDF text layer and differs from the binary extraction of its bytes. -/
theorem dotless_doc_counterexample :
    extractDocumentText fileDotlessDoc = strOf "[Page 1] PDF CONTENT"
    ∧ extractDocumentText fileDotlessDoc ≠ extractBinaryDocTextF fileDotlessDoc
    ∧ extractBinaryDocTextF fileDotlessDoc = strOf "Diagnosis: Migraine" :=
  ⟨by decide, by decide, by decide⟩

/-- C10 (amended): the extension is the lowercased segment after the last dot
and a dotless name is its own extension — so a dotless file named `pdf` with
a non-text, non-image media type is dispatched to the PDF extractor, and a
dotless file named `doc` whose media type is additionally neither
`application/pdf` nor one of the OOXML media types is dispatched to the
legacy binary extractor. -/
theorem dotless_name_dispatch :
    (∀ name : Str, '.' ∉ name → jsExt name = jsToLower name)
    ∧ (∀ f : JsFile, f.name = strOf "pdf" →
        jsStartsWith f.type (strOf "text/") = false →
        jsStartsWith f.type (strOf "image/") = false →
        extractDocumentText f = extractPdfTextF f)
    ∧ (∀ f : JsFile, f.name = strOf "doc" →
        jsStartsWith f.type (strOf "text/") = false →
        jsStartsWith f.type (strOf "image/") = false →
        f.type ≠ strOf "application/pdf" → f.type ≠ docxMime →
        f.type ≠ pptxMime → f.type ≠ xlsxMime →
        extractDocumentText f = extractBinaryDocTextF f) := by
  refine ⟨?_, ?_, ?_⟩
  · intro name h
    unfold jsExt
    rw [splitOnDot_no_dot name h]
    simp [List.getLastD]
  · intro f hn ht hi
    rw [extractDocumentText_eq]
    have hext : jsExt f.name = strOf "pdf" := by rw [hn]; decide
    have hplain : plainExts.contains (strOf "pdf") = false := by decide
    have hself : (strOf "pdf" == strOf "pdf") = true := by decide
    simp only [extractDocumentTextE, hext, ht, hi, hplain, hself]
    simp
  · intro f hn ht hi hp hd hpp hx
    rw [extractDocumentText_eq]
    have hext : jsExt f.name = strOf "doc" := by rw [hn]; decide
    have hplain : plainExts.contains (strOf "doc") = false := by decide
    have hbp : (f.type == strOf "application/pdf") = false := beq_eq_false_iff_ne.mpr hp
    have hbd : (f.type == docxMime) = false := beq_eq_false_iff_ne.mpr hd
    have hbpp : (f.type == pptxMime) = false := beq_eq_false_iff_ne.mpr hpp
    have hbx : (f.type == xlsxMime) = false := beq_eq_false_iff_ne.mpr hx
    have hne1 : (strOf "doc" == strOf "pdf") = false := by decide
    have hne2 : (strOf "doc" == strOf "docx") = false := by decide
    have hne3 : (strOf "doc" == strOf "pptx") = false := by decide
    have hne4 : (strOf "doc" == strOf "xlsx") = false := by decide
    have hdoc : [strOf "doc", strOf "ppt", strOf "xls"].contains (strOf "doc") = true := by
      decide
    simp only [extractDocumentTextE, hext, ht, hi, hplain, hbp, hbd, hbpp, hbx,
      hne1, hne2, hne3, hne4, hdoc]
    simp

theorem dotless_name_dispatch_witness :
    jsExt (strOf "nodot") = jsToLower (strOf "nodot")
    ∧ extractDocumentText fileDotlessPdf = extractPdfTextF fileDotlessPdf
    ∧ extractDocumentText fileDotlessDocOctet = extractBinaryDocTextF fileDotlessDocOctet :=
  ⟨dotless_name_dispatch.1 (strOf "nodot") (by decide),
   dotless_name_dispatch.2.1 fileDotlessPdf rfl (by decide) (by decide),
   dotless_name_dispatch.2.2 fileDotlessDocOctet rfl (by decide) (by decide)
     (by decide) (by decide) (by decide) (by decide)⟩

/-- The first components of the emitted slide pairs form a sublist of the
slide keys of the sorted slide files. -/
theorem pptx_map_fst_sublist (z : Zip) : ∀ l : List Str,
    ((l.filterMap (pptxSlideEntry z)).map Prod.fst).Sublist (l.map slideKey) := by
  have hg : ∀ x p, pptxSlideEntry z x = some p → p.1 = slideKey x := by
    intro x p h
    simp only [pptxSlideEntry] at h
    split at h
    · split at h
      · exact absurd h (by simp)
      · split at h
        · exact absurd h (by simp)
        · injection h with h2
          rw [← h2]
    · exact absurd h (by simp)
  intro l
  induction l with
  | nil => simp
  | cons x xs ih =>
    cases hx : pptxSlideEntry z x with
    | none =>
      simp only [List.filterMap_cons, hx, List.map_cons]
      exact ih.cons _
    | some p =>
      simp only [List.filterMap_cons, hx, List.map_cons]
      rw [hg x p hx]
      exact ih.cons₂ _

/-- C4: for every archive whose slide parts have pairwise distinct numeric
slide indices, the PPTX extractor emits slide texts in strictly increasing
numeric order of the index embedded in the filename, independent of the
archive's enumeration order. -/
theorem pptx_slide_numeric_order (z : Zip)
    (hdist : ((zipKeys z).filter slidePathTest).Pairwise
        (fun a b => slideKey a ≠ slideKey b)) :
    ((pptxSlidePairs z).map Prod.fst).Pairwise (fun a b => a < b)
    ∧ extractPptxText z = joinSep ['\n'] ((pptxSlidePairs z).map Prod.snd) := by
  refine ⟨?_, rfl⟩
  have hsub := pptx_map_fst_sublist z (slideFilesOf z)
  have hlt : ((slideFilesOf z).map slideKey).Pairwise (fun a b => a < b) := by
    rw [List.pairwise_map]
    simp only [slideFilesOf]
    letI : IsTotal Str (fun a b => slideKey a ≤ slideKey b) :=
      ⟨fun a b => le_total _ _⟩
    letI : IsTrans Str (fun a b => slideKey a ≤ slideKey b) :=
      ⟨fun a b c h1 h2 => le_trans h1 h2⟩
    have hs := List.sorted_insertionSort (fun a b => slideKey a ≤ slideKey b)
      ((zipKeys z).filter slidePathTest)
    have hd : (List.insertionSort (fun a b => slideKey a ≤ slideKey b)
        ((zipKeys z).filter slidePathTest)).Pairwise
        (fun a b => slideKey a ≠ slideKey b) :=
      ((List.perm_insertionSort _ _).pairwise_iff (fun h => Ne.symm h)).mpr hdist
    exact (hs.and hd).imp (fun h => lt_of_le_of_ne h.1 h.2)
  exact hlt.sublist hsub

theorem pptx_slide_numeric_order_witness :
    ((pptxSlidePairs zipSlides).map Prod.fst).Pairwise (fun a b => a < b)
    ∧ extractPptxText zipSlides = joinSep ['\n'] ((pptxSlidePairs zipSlides).map Prod.snd) :=
  pptx_slide_numeric_order zipSlides (by decide)

theorem stripTagsF_nil (fuel : Nat) : stripTagsF fuel [] = [] := by
  cases fuel <;> rfl

theorem dropWhile_all_append (p : Char → Bool) (xs ys : Str)
    (hall : ∀ x ∈ xs, p x = true) :
    (xs ++ ys).dropWhile p = ys.dropWhile p := by
  induction xs with
  | nil => rfl
  | cons x xs ih =>
    rw [List.cons_append, List.dropWhile_cons,
      if_pos (hall x (List.mem_cons_self x xs))]
    exact ih (fun a ha => hall a (List.mem_cons_of_mem x ha))

/-- Every element accepted by the scan matcher satisfies any property implied
by a successful match. -/
theorem mem_scanWithF (m : Str → Option (Str × Str)) (P : Str → Prop)
    (hm : ∀ s a r, m s = some (a, r) → P a) :
    ∀ fuel s a, a ∈ scanWithF m fuel s → P a := by
  intro fuel
  induction fuel with
  | zero => intro s a h; simp [scanWithF] at h
  | succ n ih =>
    intro s a h
    cases s with
    | nil => simp [scanWithF] at h
    | cons c tl =>
      simp only [scanWithF] at h
      cases hm2 : m (c :: tl) with
      | none =>
        rw [hm2] at h
        exact ih tl a h
      | some pr =>
        obtain ⟨a2, r2⟩ := pr
        rw [hm2] at h
        rcases List.mem_cons.mp h with h1 | h1
        · exact h1 ▸ hm _ _ _ hm2
        · exact ih r2 a h1

/-- A successful `<t…>…</t>` match decomposes into attributes without `>` and
a non-empty body without `<`. -/
theorem matchTAt_spec (s w r : Str) (h : matchTAt s = some (w, r)) :
    ∃ attrs body, w = strOf "<t" ++ attrs ++ '>' :: body ++ strOf "</t>"
      ∧ (∀ c ∈ attrs, c ≠ '>') ∧ body ≠ [] ∧ (∀ c ∈ body, c ≠ '<') := by
  simp only [matchTAt] at h
  split at h
  · split at h
    · split at h
      · exact absurd h (by simp)
      · split at h
        · rw [Option.some.injEq, Prod.mk.injEq] at h
          obtain ⟨hw, hr⟩ := h
          refine ⟨_, _, hw.symm, ?_, ?_, ?_⟩
          · intro c hc
            simpa using List.mem_takeWhile_imp hc
          · rename_i hbe _
            simpa using hbe
          · intro c hc
            simpa using List.mem_takeWhile_imp hc
        · exact absurd h (by simp)
    · exact absurd h (by simp)
  · exact absurd h (by simp)

/-- Function `tagEnd?` consumes an opening tag `t…>` whose attributes contain no `>`. -/
theorem tagEnd_t (attrs rest2 : Str) (hattrs : ∀ c ∈ attrs, c ≠ '>') :
    tagEnd? ('t' :: (attrs ++ '>' :: rest2)) = some rest2 := by
  unfold tagEnd?
  have hd : ('t' :: (attrs ++ '>' :: rest2)).dropWhile (fun x => x ≠ '>')
      = '>' :: rest2 := by
    rw [List.dropWhile_cons, if_pos (by decide)]
    rw [dropWhile_all_append _ attrs ('>' :: rest2)
      (fun x hx => decide_eq_true (hattrs x hx))]
    rw [List.dropWhile_cons, if_neg (by decide)]
  have ht : ('t' :: (attrs ++ '>' :: rest2)).takeWhile (fun x => x ≠ '>')
      = 't' :: (attrs ++ '>' :: rest2).takeWhile (fun x => x ≠ '>') := by
    rw [List.takeWhile_cons, if_pos (by decide)]
  rw [hd, ht]
  simp

/-- Stripping tags from a tagless body followed by `</t>` leaves the body. -/
theorem stripTagsF_body (body : Str) : ∀ fuel : Nat, (∀ c ∈ body, c ≠ '<') →
    body.length + 4 ≤ fuel → stripTagsF fuel (body ++ ['<', '/', 't', '>']) = body := by
  induction body with
  | nil =>
    intro fuel _ hf
    obtain ⟨n, rfl⟩ : ∃ n, fuel = n + 1 := ⟨fuel - 1, by omega⟩
    show stripTagsF (n + 1) ('<' :: ['/', 't', '>']) = []
    simp only [stripTagsF]
    rw [if_pos trivial]
    have htg : tagEnd? ['/', 't', '>'] = some [] := by decide
    rw [htg]
    exact stripTagsF_nil n
  | cons c cs ih =>
    intro fuel hc hf
    obtain ⟨n, rfl⟩ : ∃ n, fuel = n + 1 := ⟨fuel - 1, by omega⟩
    show stripTagsF (n + 1) (c :: (cs ++ ['<', '/', 't', '>'])) = c :: cs
    simp only [stripTagsF]
    rw [if_neg (hc c (List.mem_cons_self c cs))]
    rw [ih n (fun x hx => hc x (List.mem_cons_of_mem c hx))
      (by simp only [List.length_cons] at hf; omega)]

/-- Stripping the markup of a whole `<t…>body</t>` match yields the body. -/
theorem stripTags_t_match (attrs body : Str) (hattrs : ∀ c ∈ attrs, c ≠ '>')
    (hbodyc : ∀ c ∈ body, c ≠ '<') :
    stripTags (strOf "<t" ++ attrs ++ '>' :: body ++ strOf "</t>") = body := by
  have hlist : strOf "<t" ++ attrs ++ '>' :: body ++ strOf "</t>"
      = '<' :: 't' :: (attrs ++ '>' :: (body ++ ['<', '/', 't', '>'])) := by
    show ['<', 't'] ++ attrs ++ '>' :: body ++ ['<', '/', 't', '>'] = _
    simp
  unfold stripTags
  rw [hlist]
  have hlen : ('<' :: 't' :: (attrs ++ '>' :: (body ++ ['<', '/', 't', '>']))).length
      = (attrs.length + body.length + 6) + 1 := by
    simp
    omega
  rw [hlen]
  simp only [stripTagsF]
  rw [if_pos trivial]
  rw [tagEnd_t attrs _ hattrs]
  exact stripTagsF_body body _ hbodyc (by omega)

/-- Every entry of the shared-string table is non-empty: each comes from a
`<t…>body</t>` match whose body is a non-empty run without `<`. -/
theorem xlsxSharedStrings_ne_nil (z : Zip) : ∀ e ∈ xlsxSharedStrings z, e ≠ [] := by
  intro e he
  unfold xlsxSharedStrings at he
  cases hz : zipFile z (strOf "xl/sharedStrings.xml") with
  | none => rw [hz] at he; simp at he
  | some content =>
    rw [hz] at he
    simp only [List.mem_map] at he
    obtain ⟨w, hw, rfl⟩ := he
    refine mem_scanWithF matchTAt (fun w => stripTags w ≠ []) ?_ _ _ _ hw
    intro s a r h
    obtain ⟨attrs, body, hweq, ha, hb, hbc⟩ := matchTAt_spec s a r h
    rw [hweq, stripTags_t_match attrs body ha hbc]
    exact hb

/-- With a table of non-empty entries, the source's truthiness-based cell
resolution coincides with the claim's index-validity-based resolution. -/
theorem resolveCell_eq_spec (table : List Str) (hne : ∀ e ∈ table, e ≠ []) :
    resolveCell table = resolveSpec table := by
  funext val
  unfold resolveCell resolveSpec
  cases parseIntJS val with
  | none => rfl
  | some i =>
    dsimp only
    by_cases hneg : i < 0
    · rw [if_pos hneg, if_neg (fun hc => absurd hc.1 (not_le.mpr hneg))]
    · rw [if_neg hneg]
      push_neg at hneg
      by_cases hrange : i.toNat < table.length
      · have hmem : table.getD i.toNat [] ∈ table := by
          rw [List.getD_eq_getElem table [] hrange]
          exact List.getElem_mem hrange
        have hie : (table.getD i.toNat []).isEmpty = false := by
          cases hgd : table.getD i.toNat [] with
          | nil => exact absurd hgd (hne _ hmem)
          | cons a l => rfl
        rw [hie]
        simp [hneg, hrange]
      · rw [if_neg (fun hc : 0 ≤ i ∧ i.toNat < table.length => hrange hc.2)]
        rw [List.getD_eq_default _ _ (not_lt.mp hrange)]
        simp

/-- The per-sheet row extraction is unchanged by switching to the claim's
resolution rule. -/
theorem xlsxRowsOfSheet_eq (table : List Str) (hne : ∀ e ∈ table, e ≠ []) :
    xlsxRowsOfSheet table = xlsxRowsOfSheetSpec table := by
  funext content
  unfold xlsxRowsOfSheet xlsxRowsOfSheetSpec
  simp only [resolveCell_eq_spec table hne]

/-- C5: the XLSX extractor's output equals the specification-side pipeline in
which every worksheet cell value that parses as a valid integer index into
the shared-string table (built in order of appearance) is substituted by the
corresponding shared string and every other value is kept raw, rows joined
by tabs. -/
theorem xlsx_shared_string_resolution (z : Zip) :
    extractXlsxText z = extractXlsxTextSpec z := by
  have hne := xlsxSharedStrings_ne_nil z
  have hrows : xlsxRows z (xlsxSharedStrings z) = xlsxRowsSpec z (xlsxSharedStrings z) := by
    unfold xlsxRows xlsxRowsSpec
    simp only [xlsxRowsOfSheet_eq _ hne]
  simp only [extractXlsxText, extractXlsxTextSpec]
  rw [hrows]

end VitalGuard
